import Mathlib

/-!
# Verification of the markov-algorithms interpreter core

Shallow embedding of the Rust crate markov-algorithms: alphabets,
scheme properties, substitution formulas stored as index ranges into a
shared character store, the scheme builder, and the three execution
modes (apply, apply_once, application iterator).

Strings are modelled as List Char; Rust byte ranges into the store
become character-index ranges (every slice the code takes lies on
character boundaries, so the two index systems are isomorphic).
Rust Result becomes Except, Option stays Option.  HashSet of chars is
modelled as a duplicate-free List Char used only through membership.
-/

namespace MarkovSpec

/-! ## Alphabet (src/alphabet/mod.rs) -/

/-- Alphabet: a main character set plus an extension set. -/
structure Alphabet where
  main : List Char
  extension : List Char
deriving DecidableEq, Repr

/-- Membership in the main set (Alphabet::contains). -/
def Alphabet.contains (a : Alphabet) (character : Char) : Bool :=
  a.main.contains character

/-- Membership in main or extension (Alphabet::contains_extended). -/
def Alphabet.contains_extended (a : Alphabet) (character : Char) : Bool :=
  a.main.contains character || a.extension.contains character

inductive AlphabetDefinitionError
  | DuplicatedCharacterEncountered (duplicates : List Char) (alphabet_definition : List Char)
  | NoCharacters
  | ExtendedWithADuplicate
deriving DecidableEq, Repr

/-- Alphabet::extend: add a character to the extension set unless already present. -/
def Alphabet.extend (a : Alphabet) (character : Char) :
    Except AlphabetDefinitionError Alphabet :=
  if a.contains_extended character then .error .ExtendedWithADuplicate
  else .ok ⟨a.main, a.extension ++ [character]⟩

/-- Loop body of FromStr for Alphabet: insert each character into the store,
recording every character whose insertion finds it already present. -/
def from_str_go : List Char → List Char → List Char → List Char × List Char
  | store, duplicates, [] => (store, duplicates)
  | store, duplicates, character :: rest =>
    if store.contains character then from_str_go store (duplicates ++ [character]) rest
    else from_str_go (store ++ [character]) duplicates rest

/-- FromStr for Alphabet: collect duplicates; error if any, else an alphabet
with the given main set and empty extension.  There is no emptiness check
on this path. -/
def Alphabet.from_str (characters : List Char) : Except AlphabetDefinitionError Alphabet :=
  let p := from_str_go [] [] characters
  if p.2 = [] then .ok ⟨p.1, []⟩
  else .error (.DuplicatedCharacterEncountered p.2 characters)

/-- TryFrom a HashSet of chars for Alphabet: NoCharacters on the empty set,
otherwise the set becomes the main set, extension empty.  The set is
modelled as a duplicate-free list. -/
def Alphabet.try_from_set (other : List Char) : Except AlphabetDefinitionError Alphabet :=
  if other = [] then .error .NoCharacters
  else .ok ⟨other, []⟩

deriving instance DecidableEq for Except

/-! ## Error types of the scheme (src/scheme/mod.rs, scheme_builder/mod.rs) -/

inductive AlgorithmSchemeInputValidationError
  | UnknownCharactersEncountered (characters : List Char)
  | ExtensionCharactersEncountered (characters : List Char)
deriving DecidableEq, Repr

inductive AlgorithmSchemeFullApplicationError
  | HitTheStepsLimit (n : Nat)
  | ZeroStepsLimit
  | InputValidationError (source : AlgorithmSchemeInputValidationError)
deriving DecidableEq, Repr

inductive SubstitutionFormulaDefinitionError
  | NoDelimiterFound (definition : List Char)
  | MultipleDelimitersFound (definition : List Char) (n : Nat)
  | FinalMarkerOnTheLeft (definition : List Char)
  | FinalMarkerOnTheRight (definition : List Char)
deriving DecidableEq, Repr

inductive AlgorithmSchemeDefinitionError
  | DelimiterAndFinalMarkerAreTheSame (c : Char)
  | DelimiterBelongsToTheAlphabet (c : Char)
  | FinalMarkerBelongsToTheAlphabet (c : Char)
  | FormulaCreationError (source : SubstitutionFormulaDefinitionError)
  | UnknownCharactersEncountered (characters : List Char)
deriving DecidableEq, Repr

/-! ## Formula views over the shared store (src/scheme/mod.rs) -/

/-- Half-open index range a..b into the store, as in Rust. -/
abbrev StoreRange := Nat × Nat

/-- Slice store[r.1 .. r.2]. -/
def slice (store : List Char) (r : StoreRange) : List Char :=
  (store.take r.2).drop r.1

/-- FormulaView: ranges of the left and right side inside the shared store. -/
structure FormulaView where
  left : StoreRange
  right : StoreRange
deriving DecidableEq, Repr

/-- FormulaView::new. -/
def FormulaView.new (range : StoreRange) (left_end right_start : Nat) : FormulaView :=
  ⟨(range.1, range.1 + left_end), (range.1 + right_start, range.2)⟩

/-- FormulaView::get_left. -/
def FormulaView.get_left (v : FormulaView) (store : List Char) : List Char :=
  slice store v.left

/-- FormulaView::get_right. -/
def FormulaView.get_right (v : FormulaView) (store : List Char) : List Char :=
  slice store v.right

/-- FormulaView::peek_definition: the view from the start of the left side to
the end of the right side. -/
def FormulaView.peek_definition (v : FormulaView) (store : List Char) : List Char :=
  (store.take v.right.2).drop v.left.1

/-! ## Scheme data model -/

structure SchemeProperties where
  delimiter : Char
  final_marker : Char
  alphabet : Alphabet
deriving DecidableEq, Repr

structure SubstitutionFormula where
  view : FormulaView
  is_final : Bool
deriving DecidableEq, Repr

structure AlgorithmScheme where
  properties : SchemeProperties
  store : List Char
  substitution_formulas : List SubstitutionFormula
deriving DecidableEq, Repr

structure SingleApplicationData where
  word : List Char
  applied_formula_definition : Option (List Char)
deriving DecidableEq, Repr

inductive SingleApplicationResult
  | Final (data : SingleApplicationData)
  | Intermediate (data : SingleApplicationData)
deriving DecidableEq, Repr

structure FullApplicationResult where
  word : List Char
  steps_done : Nat
deriving DecidableEq, Repr

inductive SubstitutionFormulaApplicationResult
  | Final (word : List Char)
  | Intermediate (word : List Char)
deriving DecidableEq, Repr

/-! ## Substring search and replacement

Rust str::contains / str::replacen(pat, rep, 1).  first_match returns the
decomposition of the word at the leftmost occurrence of the pattern:
the part before it and the part after it. -/

/-- Leftmost-occurrence decomposition: some (pre, post) with
word = pre ++ pat ++ post and pre shortest, none when pat never occurs.
An empty pattern matches at the front, as for Rust str patterns. -/
def first_match (pat : List Char) : List Char → Option (List Char × List Char)
  | [] => if pat.isPrefixOf [] then some ([], ([] : List Char).drop pat.length) else none
  | c :: rest =>
    if pat.isPrefixOf (c :: rest) then some ([], (c :: rest).drop pat.length)
    else (first_match pat rest).map fun pr => (c :: pr.1, pr.2)

/-- SubstitutionFormula::apply: on the leftmost occurrence of the left side,
replace it by the right side; wrap as Final or Intermediate following
is_final; none when the left side does not occur. -/
def SubstitutionFormula.apply (f : SubstitutionFormula) (store word : List Char) :
    Option SubstitutionFormulaApplicationResult :=
  let left := f.view.get_left store
  let right := f.view.get_right store
  match first_match left word with
  | some (pre, post) =>
    let substitution_result := pre ++ right ++ post
    if f.is_final then some (.Final substitution_result)
    else some (.Intermediate substitution_result)
  | none => none

/-! ## Formula parsing (FormulaAssertions, FormulaParser) -/

/-- FormulaAssertions::assert_single_simple_delimiter. -/
def assert_single_simple_delimiter (delimiter : Char) (formula_definition : List Char) :
    Except SubstitutionFormulaDefinitionError Unit :=
  match formula_definition.count delimiter with
  | 0 => .error (.NoDelimiterFound formula_definition)
  | 1 => .ok ()
  | n + 2 => .error (.MultipleDelimitersFound formula_definition (n + 2))

/-- FormulaAssertions::assert_no_more_final_markers. -/
def assert_no_more_final_markers (final_marker : Char) (formula_definition left right : List Char) :
    Except SubstitutionFormulaDefinitionError Unit :=
  if left.contains final_marker then .error (.FinalMarkerOnTheLeft formula_definition)
  else if right.contains final_marker then .error (.FinalMarkerOnTheRight formula_definition)
  else .ok ()

structure ParseResult where
  is_final : Bool
  left_end : Nat
  right_start : Nat
deriving DecidableEq, Repr

/-- FormulaParser::parse.  The code tests for the compound sequence
delimiter-then-marker, splits on it (else on the bare delimiter), takes
left_end as the length of the first split component and right_start by an
rfind of the last component.  The first split component is the text before
the leftmost separator occurrence, and the last component is a suffix of
the line, so its rfind position is the line length minus its length; the
fallback arm models the index panic that a delimiter-free line would hit,
which assert_single_simple_delimiter rules out beforehand. -/
def formula_parse (delimiter final_marker : Char) (formula_definition : List Char) :
    ParseResult :=
  match first_match [delimiter, final_marker] formula_definition with
  | some (pre, post) => ⟨true, pre.length, formula_definition.length - post.length⟩
  | none =>
    match first_match [delimiter] formula_definition with
    | some (pre, post) => ⟨false, pre.length, formula_definition.length - post.length⟩
    | none => ⟨false, 0, 0⟩

/-- SubstitutionFormula::new. -/
def SubstitutionFormula.new (properties : SchemeProperties) (store : List Char)
    (range : StoreRange) : Except SubstitutionFormulaDefinitionError SubstitutionFormula :=
  let formula_definition := slice store range
  match assert_single_simple_delimiter properties.delimiter formula_definition with
  | .error e => .error e
  | .ok _ =>
    let pr := formula_parse properties.delimiter properties.final_marker formula_definition
    let view := FormulaView.new range pr.left_end pr.right_start
    match assert_no_more_final_markers properties.final_marker formula_definition
        (view.get_left store) (view.get_right store) with
    | .error e => .error e
    | .ok _ => .ok ⟨view, pr.is_final⟩

/-! ## Scheme execution (AlgorithmScheme) -/

/-- Loop of AlgorithmScheme::apply_once_unsafe over the formula list. -/
def apply_once_go (store word : List Char) :
    List SubstitutionFormula → SingleApplicationResult
  | [] => .Final ⟨word, none⟩
  | f :: rest =>
    match f.apply store word with
    | some (.Final w) => .Final ⟨w, some (f.view.peek_definition store)⟩
    | some (.Intermediate w) => .Intermediate ⟨w, some (f.view.peek_definition store)⟩
    | none => apply_once_go store word rest

/-- AlgorithmScheme::apply_once_unsafe: first applicable formula wins;
with none applicable, Final with the word unchanged and no definition. -/
def apply_once_unchecked (s : AlgorithmScheme) (word : List Char) : SingleApplicationResult :=
  apply_once_go s.store word s.substitution_formulas

/-- AlgorithmScheme::assert_valid_word: one fold classifying every character,
then unknown characters win over extension characters. -/
def assert_valid_word (s : AlgorithmScheme) (word : List Char) :
    Except AlgorithmSchemeInputValidationError Unit :=
  let filtered := word.foldl
    (fun accumulator character =>
      if !s.properties.alphabet.contains_extended character then
        (accumulator.1 ++ [character], accumulator.2)
      else if !s.properties.alphabet.contains character then
        (accumulator.1, accumulator.2 ++ [character])
      else accumulator)
    (([] : List Char), ([] : List Char))
  if filtered.1 ≠ [] then .error (.UnknownCharactersEncountered filtered.1)
  else if filtered.2 ≠ [] then .error (.ExtensionCharactersEncountered filtered.2)
  else .ok ()

/-- AlgorithmScheme::apply_once. -/
def apply_once (s : AlgorithmScheme) (word : List Char) :
    Except AlgorithmSchemeInputValidationError SingleApplicationResult :=
  match assert_valid_word s word with
  | .error e => .error e
  | .ok _ => .ok (apply_once_unchecked s word)

/-- AlgorithmScheme::assert_non_zero_limit. -/
def assert_non_zero_limit (steps_limit : Nat) :
    Except AlgorithmSchemeFullApplicationError Unit :=
  if steps_limit = 0 then .error .ZeroStepsLimit else .ok ()

/-- Loop of AlgorithmScheme::apply: fuel is steps_limit minus steps_done, so
the while condition steps_done < steps_limit is fuel > 0, and exhaustion
reports HitTheStepsLimit at the steps_done reached. -/
def apply_go (s : AlgorithmScheme) (word : List Char) (steps_done : Nat) :
    Nat → Except AlgorithmSchemeFullApplicationError FullApplicationResult
  | 0 => .error (.HitTheStepsLimit steps_done)
  | fuel + 1 =>
    match apply_once_unchecked s word with
    | .Final data => .ok ⟨data.word, steps_done + 1⟩
    | .Intermediate data => apply_go s data.word (steps_done + 1) fuel

/-- AlgorithmScheme::apply: limit check, then word validation, then the loop. -/
def AlgorithmScheme.apply (s : AlgorithmScheme) (word : List Char) (steps_limit : Nat) :
    Except AlgorithmSchemeFullApplicationError FullApplicationResult :=
  match assert_non_zero_limit steps_limit with
  | .error e => .error e
  | .ok _ =>
    match assert_valid_word s word with
    | .error e => .error (.InputValidationError e)
    | .ok _ => apply_go s word 0 steps_limit

/-! ## Application iterator (ApplicationIterator) -/

structure ApplicationIterator where
  word : List Char
  is_completed : Bool
deriving DecidableEq, Repr

/-- Outcome of one advance of the iterator.  The panicked arm models the
expect call in ApplicationIterator::next aborting the process when
apply_once rejects the retained word. -/
inductive IteratorStepOutcome
  | panicked
  | exhausted
  | yielded (data : SingleApplicationData) (state : ApplicationIterator)
deriving DecidableEq, Repr

/-- ApplicationIterator::next. -/
def ApplicationIterator.next_step (s : AlgorithmScheme) (it : ApplicationIterator) :
    IteratorStepOutcome :=
  if it.is_completed then .exhausted
  else
    match apply_once s it.word with
    | .error _ => .panicked
    | .ok (.Final data) => .yielded data ⟨data.word, true⟩
    | .ok (.Intermediate data) => .yielded data ⟨data.word, false⟩

/-- AlgorithmScheme::get_application_iterator. -/
def get_application_iterator (s : AlgorithmScheme) (word : List Char) :
    Except AlgorithmSchemeInputValidationError ApplicationIterator :=
  match assert_valid_word s word with
  | .error e => .error e
  | .ok _ => .ok ⟨word, false⟩

/-! ## Scheme builder (src/scheme/scheme_builder/mod.rs) -/

/-- PropertyAssertions::assert_definition_conforms_to_properties. -/
def assert_definition_conforms_to_properties (properties : SchemeProperties)
    (formula_definition : List Char) : Except AlgorithmSchemeDefinitionError Unit :=
  let invalid_characters := formula_definition.filter fun character =>
    !properties.alphabet.contains_extended character
      && character != properties.delimiter && character != properties.final_marker
  if invalid_characters = [] then .ok ()
  else .error (.UnknownCharactersEncountered invalid_characters)

/-- PropertyAssertions::assert_all_properties_are_valid. -/
def assert_all_properties_are_valid (properties : SchemeProperties) :
    Except AlgorithmSchemeDefinitionError Unit :=
  if properties.delimiter = properties.final_marker then
    .error (.DelimiterAndFinalMarkerAreTheSame properties.delimiter)
  else if properties.alphabet.contains properties.delimiter then
    .error (.DelimiterBelongsToTheAlphabet properties.delimiter)
  else if properties.alphabet.contains properties.final_marker then
    .error (.FinalMarkerBelongsToTheAlphabet properties.final_marker)
  else .ok ()

/-- SubstitutionFormulaCollectionBuilder::try_add_formula: append the raw line
to the store and build a formula over that range. -/
def try_add_formula (properties : SchemeProperties) (store : List Char)
    (formulas : List SubstitutionFormula) (formula_definition : List Char) :
    Except AlgorithmSchemeDefinitionError (List Char × List SubstitutionFormula) :=
  let start := store.length
  let store2 := store ++ formula_definition
  let stop := store2.length
  match SubstitutionFormula.new properties store2 (start, stop) with
  | .ok formula => .ok (store2, formulas ++ [formula])
  | .error e => .error (.FormulaCreationError e)

/-- Loop of AlgorithmSchemeBuilder::build_with_formula_definitions over the
definition lines. -/
def build_go (properties : SchemeProperties) :
    List (List Char) → List Char → List SubstitutionFormula →
    Except AlgorithmSchemeDefinitionError (List Char × List SubstitutionFormula)
  | [], store, formulas => .ok (store, formulas)
  | d :: rest, store, formulas =>
    match assert_definition_conforms_to_properties properties d with
    | .error e => .error e
    | .ok _ =>
      match try_add_formula properties store formulas d with
      | .error e => .error e
      | .ok (store2, formulas2) => build_go properties rest store2 formulas2

structure AlgorithmSchemeBuilder where
  alphabet : Option Alphabet
  delimiter : Option Char
  final_marker : Option Char

def default_delimiter : Char := '→'

def default_final_marker : Char := '⋅'

/-- AlgorithmSchemeBuilder::create_default_alphabet: a-z, A-Z, 0-9. -/
def create_default_alphabet : Alphabet :=
  ⟨((List.range 26).map fun i => Char.ofNat ('a'.toNat + i))
    ++ ((List.range 26).map fun i => Char.ofNat ('A'.toNat + i))
    ++ ((List.range 10).map fun i => Char.ofNat ('0'.toNat + i)), []⟩

/-- AlgorithmSchemeBuilder::finalize_properties. -/
def finalize_properties (b : AlgorithmSchemeBuilder) : SchemeProperties :=
  ⟨b.delimiter.getD default_delimiter, b.final_marker.getD default_final_marker,
    b.alphabet.getD create_default_alphabet⟩

/-- AlgorithmSchemeBuilder::build_with_formula_definitions. -/
def build_with_formula_definitions (b : AlgorithmSchemeBuilder)
    (formula_definitions : List (List Char)) :
    Except AlgorithmSchemeDefinitionError AlgorithmScheme :=
  let properties := finalize_properties b
  match assert_all_properties_are_valid properties with
  | .error e => .error e
  | .ok _ =>
    match build_go properties formula_definitions [] [] with
    | .error e => .error e
    | .ok (store, substitution_formulas) => .ok ⟨properties, store, substitution_formulas⟩

/-! ## Concrete schemes used in the claim instances -/

/-- Fallback scheme for the impossible error arms of the example builds. -/
def dummy_scheme : AlgorithmScheme :=
  ⟨⟨'a', 'b', ⟨[], []⟩⟩, [], []⟩

/-- Build result of scenario A: default builder, formulas a to b, b to c,
c to final 4. -/
def example_build_a : Except AlgorithmSchemeDefinitionError AlgorithmScheme :=
  build_with_formula_definitions ⟨none, none, none⟩
    ["a→b".toList, "b→c".toList, "c→⋅4".toList]

def example_scheme_a : AlgorithmScheme :=
  match example_build_a with
  | .ok s => s
  | .error _ => dummy_scheme

/-- Build result of the extension-character scenario: alphabet a b c with
extension d, formulas a to d and d to final c. -/
def example_build_d : Except AlgorithmSchemeDefinitionError AlgorithmScheme :=
  build_with_formula_definitions ⟨some ⟨"abc".toList, ['d']⟩, none, none⟩
    ["a→d".toList, "d→⋅c".toList]

def example_scheme_d : AlgorithmScheme :=
  match example_build_d with
  | .ok s => s
  | .error _ => dummy_scheme

/-- Build result of the empty-left-side scenario: default builder, single
formula with empty left side and right side b. -/
def example_build_e : Except AlgorithmSchemeDefinitionError AlgorithmScheme :=
  build_with_formula_definitions ⟨none, none, none⟩ ["→b".toList]

def example_scheme_e : AlgorithmScheme :=
  match example_build_e with
  | .ok s => s
  | .error _ => dummy_scheme

/-! ## Derived observations used to state the claims -/

/-- Payload of a single application result, Final or Intermediate. -/
def result_data : SingleApplicationResult → SingleApplicationData
  | .Final data => data
  | .Intermediate data => data

/-- Word produced by one unchecked application step. -/
def step_word (s : AlgorithmScheme) (word : List Char) : List Char :=
  (result_data (apply_once_unchecked s word)).word

/-- Word reached after n unchecked application steps. -/
def nth_word (s : AlgorithmScheme) (word : List Char) : Nat → List Char
  | 0 => word
  | n + 1 => step_word s (nth_word s word n)

/-- Whether the unchecked application step at this word is Final. -/
def is_final_step (s : AlgorithmScheme) (word : List Char) : Bool :=
  match apply_once_unchecked s word with
  | .Final _ => true
  | .Intermediate _ => false

/-- The pattern occurs as a contiguous substring of the word. -/
def occurs_in (pat w : List Char) : Prop :=
  ∃ pre post, w = pre ++ pat ++ post

/-- The decomposition of w around the leftmost occurrence of pat. -/
def leftmost_split (pat w pre post : List Char) : Prop :=
  w = pre ++ pat ++ post ∧
    ∀ pre2 post2, w = pre2 ++ pat ++ post2 → pre.length ≤ pre2.length

/-! ## Lemmas: first_match computes the leftmost occurrence -/

theorem isPrefixOf_iff_exists {pat w : List Char} :
    pat.isPrefixOf w = true ↔ ∃ t, pat ++ t = w := by
  rw [List.isPrefixOf_iff_prefix]
  exact Iff.rfl

theorem occurs_in_cons {pat : List Char} {c : Char} {rest : List Char}
    (h : ¬ pat.isPrefixOf (c :: rest) = true) :
    occurs_in pat (c :: rest) ↔ occurs_in pat rest := by
  constructor
  · rintro ⟨pre, post, hw⟩
    cases pre with
    | nil =>
      exact absurd (isPrefixOf_iff_exists.mpr ⟨post, hw.symm⟩) h
    | cons p0 pre' =>
      rw [List.cons_append] at hw
      injection hw with _ hrest
      exact ⟨pre', post, hrest⟩
  · rintro ⟨pre, post, hw⟩
    exact ⟨c :: pre, post, by simp [hw]⟩

theorem first_match_eq_none_iff (pat w : List Char) :
    first_match pat w = none ↔ ¬ occurs_in pat w := by
  induction w with
  | nil =>
    by_cases h : pat.isPrefixOf ([] : List Char) = true
    · rcases isPrefixOf_iff_exists.mp h with ⟨t, ht⟩
      have hpat : pat = [] := (List.append_eq_nil.mp ht).1
      rw [first_match, if_pos h]
      constructor
      · intro hco
        exact absurd hco (by simp)
      · intro hno
        exact ((hno ⟨[], [], by simp [hpat]⟩).elim)
    · rw [first_match, if_neg h]
      simp only [true_iff]
      rintro ⟨pre, post, hw⟩
      rcases List.append_eq_nil.mp hw.symm with ⟨hpp, _⟩
      rcases List.append_eq_nil.mp hpp with ⟨_, hpat⟩
      exact h (by simp [hpat])
  | cons c rest ih =>
    by_cases h : pat.isPrefixOf (c :: rest) = true
    · rw [first_match, if_pos h]
      constructor
      · intro hco
        exact absurd hco (by simp)
      · intro hno
        rcases isPrefixOf_iff_exists.mp h with ⟨t, ht⟩
        exact ((hno ⟨[], t, by simp [ht]⟩).elim)
    · rw [first_match, if_neg h]
      rw [Option.map_eq_none', ih]
      exact (not_congr (occurs_in_cons h)).symm

theorem first_match_some_leftmost {pat w pre post : List Char}
    (h : first_match pat w = some (pre, post)) : leftmost_split pat w pre post := by
  induction w generalizing pre post with
  | nil =>
    rw [first_match] at h
    by_cases hp : pat.isPrefixOf ([] : List Char) = true
    · rw [if_pos hp] at h
      have hpat : pat = [] := (List.append_eq_nil.mp
        (isPrefixOf_iff_exists.mp hp).choose_spec).1
      injection h with h2
      injection h2 with hpre hpost
      constructor
      · simp [← hpre, ← hpost, hpat]
      · intro pre2 post2 _
        rw [← hpre]
        exact Nat.zero_le _
    · rw [if_neg hp] at h
      exact absurd h (by simp)
  | cons c rest ih =>
    rw [first_match] at h
    by_cases hp : pat.isPrefixOf (c :: rest) = true
    · rw [if_pos hp] at h
      rcases isPrefixOf_iff_exists.mp hp with ⟨t, ht⟩
      have hdrop : (c :: rest).drop pat.length = t := by
        rw [← ht, List.drop_left]
      injection h with h2
      injection h2 with hpre hpost
      constructor
      · rw [← hpre, ← hpost, hdrop, List.nil_append, ht]
      · intro pre2 post2 _
        rw [← hpre]
        exact Nat.zero_le _
    · rw [if_neg hp] at h
      rcases Option.map_eq_some'.mp h with ⟨⟨pre', post'⟩, hfm, heq⟩
      injection heq with hpre hpost
      rcases ih hfm with ⟨hw, hmin⟩
      constructor
      · rw [← hpre, ← hpost]
        simp only [List.cons_append]
        rw [← hw]
      · intro pre2 post2 h2
        cases pre2 with
        | nil =>
          exact absurd (isPrefixOf_iff_exists.mpr ⟨post2, by simpa using h2.symm⟩) hp
        | cons q0 pre2' =>
          simp only [List.cons_append] at h2
          injection h2 with _ hrest
          rw [← hpre]
          simpa using hmin pre2' post2 hrest

theorem first_match_of_leftmost {pat w pre post : List Char}
    (h : leftmost_split pat w pre post) : first_match pat w = some (pre, post) := by
  rcases h with ⟨hw, hmin⟩
  induction w generalizing pre post with
  | nil =>
    rcases List.append_eq_nil.mp hw.symm with ⟨hpp, hpost⟩
    rcases List.append_eq_nil.mp hpp with ⟨hpre, hpat⟩
    subst hpre hpost
    simp [first_match, hpat]
  | cons c rest ih =>
    by_cases hp : pat.isPrefixOf (c :: rest) = true
    · rcases isPrefixOf_iff_exists.mp hp with ⟨t, ht⟩
      have hpre : pre = [] := by
        have := hmin [] t (by simp [ht])
        exact List.length_eq_zero.mp (Nat.le_zero.mp (by simpa using this))
      subst hpre
      have hpost : post = t := by
        have hw2 : pat ++ post = pat ++ t := by
          have h3 : pat ++ post = c :: rest := by simpa using hw.symm
          rw [h3, ht]
        exact List.append_cancel_left hw2
      subst hpost
      rw [first_match, if_pos hp]
      rw [← ht, List.drop_left]
    · cases pre with
      | nil =>
        exact absurd (isPrefixOf_iff_exists.mpr ⟨post, by simpa using hw.symm⟩) hp
      | cons p0 pre' =>
        simp only [List.cons_append] at hw
        injection hw with hc hrest
        have hrec : first_match pat rest = some (pre', post) := by
          apply ih hrest
          intro pre2 post2 h2
          have := hmin (c :: pre2) post2 (by simp [h2])
          simpa using this
        rw [first_match, if_neg hp, hrec]
        simp [hc]

/-! ## Lemmas: slices of the shared store -/

theorem slice_append_take (st line : List Char) (k : Nat) :
    slice (st ++ line) (st.length, st.length + k) = line.take k := by
  unfold slice
  rw [List.take_append_eq_append_take]
  have h1 : st.take (st.length + k) = st := List.take_of_length_le (Nat.le_add_right _ _)
  have h2 : st.length + k - st.length = k := by omega
  rw [h1, h2, List.drop_left]

theorem slice_append_drop (st line : List Char) (k : Nat) :
    slice (st ++ line) (st.length + k, (st ++ line).length) = line.drop k := by
  unfold slice
  rw [List.take_length]
  rw [List.drop_append_eq_append_drop]
  have h1 : st.drop (st.length + k) = [] := List.drop_eq_nil_of_le (Nat.le_add_right _ _)
  have h2 : st.length + k - st.length = k := by omega
  rw [h1, h2, List.nil_append]

theorem slice_stable (st rest : List Char) (r : StoreRange) (h : r.2 ≤ st.length) :
    slice (st ++ rest) r = slice st r := by
  unfold slice
  rw [List.take_append_eq_append_take]
  have h2 : r.2 - st.length = 0 := by omega
  rw [h2, List.take_zero, List.append_nil]

/-! ## Lemmas: the formula scan of apply_once -/

theorem apply_once_go_no_match {store word : List Char} {l : List SubstitutionFormula}
    (h : ∀ f ∈ l, first_match (f.view.get_left store) word = none) :
    apply_once_go store word l = .Final ⟨word, none⟩ := by
  induction l with
  | nil => rfl
  | cons f rest ih =>
    have hf : first_match (f.view.get_left store) word = none :=
      h f (List.mem_cons_self f rest)
    have happ : f.apply store word = none := by
      simp only [SubstitutionFormula.apply, hf]
    rw [apply_once_go, happ]
    exact ih fun g hg => h g (List.mem_cons_of_mem f hg)

theorem apply_once_go_match {store word : List Char} :
    ∀ {l : List SubstitutionFormula} {i : Nat} {f : SubstitutionFormula}
      {pre post : List Char},
    l.get? i = some f →
    (∀ j g, j < i → l.get? j = some g → first_match (g.view.get_left store) word = none) →
    first_match (f.view.get_left store) word = some (pre, post) →
    apply_once_go store word l =
      (if f.is_final then SingleApplicationResult.Final else SingleApplicationResult.Intermediate)
        ⟨pre ++ f.view.get_right store ++ post, some (f.view.peek_definition store)⟩ := by
  intro l
  induction l with
  | nil =>
    intro i f pre post hget _ _
    simp at hget
  | cons g0 rest ih =>
    intro i f pre post hget hbefore hfm
    cases i with
    | zero =>
      have hf : g0 = f := by simpa using hget
      subst hf
      have happ : g0.apply store word =
          some (if g0.is_final then SubstitutionFormulaApplicationResult.Final
              (pre ++ g0.view.get_right store ++ post)
            else SubstitutionFormulaApplicationResult.Intermediate
              (pre ++ g0.view.get_right store ++ post)) := by
        simp only [SubstitutionFormula.apply, hfm]
        cases hfin : g0.is_final <;> simp [hfin]
      rw [apply_once_go, happ]
      cases hfin : g0.is_final <;> simp [hfin]
    | succ i' =>
      have hg0 : first_match (g0.view.get_left store) word = none :=
        hbefore 0 g0 (Nat.succ_pos i') rfl
      have happ : g0.apply store word = none := by
        simp only [SubstitutionFormula.apply, hg0]
      rw [apply_once_go, happ]
      exact ih (by simpa using hget)
        (fun j g hj hjg => hbefore (j + 1) g (Nat.succ_lt_succ hj) (by simpa using hjg))
        hfm

/-! ## Lemmas: word validation -/

theorem valid_fold (a : Alphabet) :
    ∀ (w u e : List Char),
    w.foldl
      (fun accumulator character =>
        if !a.contains_extended character then
          (accumulator.1 ++ [character], accumulator.2)
        else if !a.contains character then
          (accumulator.1, accumulator.2 ++ [character])
        else accumulator)
      (u, e)
    = (u ++ w.filter fun c => !a.contains_extended c,
       e ++ w.filter fun c => a.contains_extended c && !a.contains c) := by
  intro w
  induction w with
  | nil => intro u e; simp
  | cons c rest ih =>
    intro u e
    rw [List.foldl_cons]
    cases h1 : a.contains_extended c
    · simp only [h1, Bool.not_false, if_pos]
      rw [ih]
      simp [List.filter_cons, h1]
    · cases h2 : a.contains c
      · simp only [h1, h2, Bool.not_true, Bool.not_false, if_neg, if_pos]
        rw [ih]
        simp [List.filter_cons, h1, h2]
      · simp only [h1, h2, Bool.not_true, if_neg]
        rw [ih]
        simp [List.filter_cons, h1, h2]

theorem contains_le_contains_extended {a : Alphabet} {c : Char}
    (h : a.contains c = true) : a.contains_extended c = true := by
  unfold Alphabet.contains at h
  unfold Alphabet.contains_extended
  rw [h, Bool.true_or]

/-! ## Lemmas: the bounded application loop -/

theorem nth_word_shift (s : AlgorithmScheme) (w : List Char) :
    ∀ n, nth_word s (step_word s w) n = nth_word s w (n + 1) := by
  intro n
  induction n with
  | zero => rfl
  | succ n ih =>
    rw [nth_word, ih]
    rfl

theorem final_step_cases (s : AlgorithmScheme) (w : List Char) :
    (is_final_step s w = true ∧
      apply_once_unchecked s w = .Final ⟨step_word s w, (result_data
        (apply_once_unchecked s w)).applied_formula_definition⟩) ∨
    (is_final_step s w = false ∧
      apply_once_unchecked s w = .Intermediate ⟨step_word s w, (result_data
        (apply_once_unchecked s w)).applied_formula_definition⟩) := by
  unfold is_final_step step_word result_data
  cases h : apply_once_unchecked s w
  · exact Or.inl ⟨rfl, rfl⟩
  · exact Or.inr ⟨rfl, rfl⟩

theorem apply_go_hit {s : AlgorithmScheme} :
    ∀ (fuel : Nat) (w : List Char) (done : Nat),
    (∀ k, k < fuel → is_final_step s (nth_word s w k) = false) →
    apply_go s w done fuel = .error (.HitTheStepsLimit (done + fuel)) := by
  intro fuel
  induction fuel with
  | zero => intro w done _; rfl
  | succ fuel ih =>
    intro w done h
    have h0 : is_final_step s w = false := h 0 (Nat.succ_pos fuel)
    rcases final_step_cases s w with ⟨ht, _⟩ | ⟨_, hstep⟩
    · rw [h0] at ht; exact absurd ht (by simp)
    · rw [apply_go, hstep]
      have hrec := ih (step_word s w) (done + 1) fun k hk => by
        rw [nth_word_shift]
        exact h (k + 1) (Nat.succ_lt_succ hk)
      exact hrec.trans (congrArg
        (fun n => Except.error (AlgorithmSchemeFullApplicationError.HitTheStepsLimit n))
        (by omega))

theorem apply_go_final {s : AlgorithmScheme} :
    ∀ (k fuel : Nat) (w : List Char) (done : Nat),
    k < fuel →
    is_final_step s (nth_word s w k) = true →
    (∀ j, j < k → is_final_step s (nth_word s w j) = false) →
    apply_go s w done fuel = .ok ⟨nth_word s w (k + 1), done + (k + 1)⟩ := by
  intro k
  induction k with
  | zero =>
    intro fuel w done hk hfin _
    cases fuel with
    | zero => exact absurd hk (by omega)
    | succ fuel =>
      rcases final_step_cases s w with ⟨_, hstep⟩ | ⟨hf, _⟩
      · rw [apply_go, hstep]
        rfl
      · rw [show nth_word s w 0 = w from rfl] at hfin
        rw [hfin] at hf
        exact absurd hf (by simp)
  | succ k ih =>
    intro fuel w done hk hfin hbefore
    cases fuel with
    | zero => exact absurd hk (by omega)
    | succ fuel =>
      have h0 : is_final_step s w = false := hbefore 0 (Nat.succ_pos k)
      rcases final_step_cases s w with ⟨ht, _⟩ | ⟨_, hstep⟩
      · rw [h0] at ht; exact absurd ht (by simp)
      · rw [apply_go, hstep]
        have hrec := ih fuel (step_word s w) (done + 1) (Nat.lt_of_succ_lt_succ hk)
          (by rw [nth_word_shift]; exact hfin)
          (fun j hj => by
            rw [nth_word_shift]
            exact hbefore (j + 1) (Nat.succ_lt_succ hj))
        exact hrec.trans (by
          rw [nth_word_shift]
          have harith : done + 1 + (k + 1) = done + (k + 1 + 1) := by omega
          rw [harith])

theorem apply_go_ok_inv {s : AlgorithmScheme} :
    ∀ (fuel : Nat) (w : List Char) (done : Nat) (res : FullApplicationResult),
    apply_go s w done fuel = .ok res →
    ∃ k, k < fuel ∧ res.word = nth_word s w (k + 1) ∧ res.steps_done = done + (k + 1) ∧
      is_final_step s (nth_word s w k) = true ∧
      ∀ j, j < k → is_final_step s (nth_word s w j) = false := by
  intro fuel
  induction fuel with
  | zero =>
    intro w done res h
    exact absurd h (by rw [apply_go]; simp)
  | succ fuel ih =>
    intro w done res h
    rcases final_step_cases s w with ⟨hf, hstep⟩ | ⟨hf, hstep⟩
    · rw [apply_go, hstep] at h
      have h2 : Except.ok (FullApplicationResult.mk (step_word s w) (done + 1)) =
          Except.ok res := h
      injection h2 with h3
      refine ⟨0, Nat.succ_pos fuel, ?_, ?_, hf, by omega⟩
      · rw [← h3]
        rfl
      · rw [← h3]
    · rw [apply_go, hstep] at h
      rcases ih (step_word s w) (done + 1) res h with
        ⟨k, hk, hword, hsteps, hfin, hbefore⟩
      refine ⟨k + 1, Nat.succ_lt_succ hk, ?_, by omega, ?_, ?_⟩
      · rw [hword, nth_word_shift]
      · rw [← nth_word_shift]
        exact hfin
      · intro j hj
        cases j with
        | zero => exact hf
        | succ j =>
          rw [← nth_word_shift]
          exact hbefore j (Nat.lt_of_succ_lt_succ hj)

/-! ## Lemmas: alphabet parsing -/

theorem contains_iff_mem {l : List Char} {c : Char} : l.contains c = true ↔ c ∈ l := by
  simp

theorem from_str_go_mem :
    ∀ (cs store dups : List Char) (c : Char),
    c ∈ (from_str_go store dups cs).1 ↔ c ∈ store ∨ c ∈ cs := by
  intro cs
  induction cs with
  | nil =>
    intro store dups c
    rw [from_str_go]
    simp
  | cons a rest ih =>
    intro store dups c
    rw [from_str_go]
    by_cases ha : store.contains a = true
    · rw [if_pos ha, ih]
      have hamem : a ∈ store := contains_iff_mem.mp ha
      simp only [List.mem_cons]
      constructor
      · rintro (h | h)
        · exact Or.inl h
        · exact Or.inr (Or.inr h)
      · rintro (h | rfl | h)
        · exact Or.inl h
        · exact Or.inl hamem
        · exact Or.inr h
    · rw [if_neg ha, ih]
      simp only [List.mem_append, List.mem_singleton, List.mem_cons]
      tauto

theorem from_str_go_count :
    ∀ (cs store dups : List Char) (c : Char),
    ((from_str_go store dups cs).2).count c =
      dups.count c + (if c ∈ store then cs.count c else cs.count c - 1) := by
  intro cs
  induction cs with
  | nil =>
    intro store dups c
    rw [from_str_go]
    simp
  | cons a rest ih =>
    intro store dups c
    rw [from_str_go]
    by_cases ha : store.contains a = true
    · have hamem : a ∈ store := contains_iff_mem.mp ha
      rw [if_pos ha, ih]
      by_cases hc : c = a
      · subst hc
        simp only [List.count_append, List.count_cons, List.count_singleton, if_pos hamem,
          if_pos (List.mem_cons_self c rest)]
        simp [hamem]
        omega
      · by_cases hcs : c ∈ store
        · simp [List.count_append, List.count_cons, hc, hcs, List.count_singleton]
        · simp [List.count_append, List.count_cons, hc, hcs, List.count_singleton]
    · have hanmem : a ∉ store := fun hmem => ha (contains_iff_mem.mpr hmem)
      rw [if_neg ha, ih]
      by_cases hc : c = a
      · subst hc
        have hin : c ∈ store ++ [c] := by simp
        simp only [if_pos hin, if_neg hanmem, List.count_cons_self]
        omega
      · have hiff : c ∈ store ++ [a] ↔ c ∈ store := by simp [hc]
        by_cases hcs : c ∈ store
        · simp [hiff.mpr hcs, hcs, List.count_cons, hc]
        · rw [if_neg (fun h => hcs (hiff.mp h)), if_neg hcs,
            List.count_cons_of_ne (fun h => hc h)]

theorem from_str_go_dups_of_nodup :
    ∀ (cs store dups : List Char), cs.Nodup → (∀ c ∈ cs, c ∉ store) →
    (from_str_go store dups cs).2 = dups := by
  intro cs
  induction cs with
  | nil =>
    intro store dups _ _
    rw [from_str_go]
  | cons a rest ih =>
    intro store dups hnd hdisj
    rw [from_str_go]
    have hna : a ∉ store := hdisj a (List.mem_cons_self a rest)
    rw [if_neg (fun h => hna (contains_iff_mem.mp h))]
    apply ih
    · exact (List.nodup_cons.mp hnd).2
    · intro c hc
      simp only [List.mem_append, List.mem_singleton]
      rintro (h | rfl)
      · exact hdisj c (List.mem_cons_of_mem a hc) h
      · exact (List.nodup_cons.mp hnd).1 hc

/-! ## Lemmas: builder invariants over the shared store -/

theorem first_match_pre_length_le {pat w pre post : List Char}
    (h : first_match pat w = some (pre, post)) : pre.length ≤ w.length := by
  have hw := (first_match_some_leftmost h).1
  have hlen := congrArg List.length hw
  simp only [List.length_append] at hlen
  omega

theorem formula_parse_bounds (delimiter final_marker : Char) (line : List Char) :
    (formula_parse delimiter final_marker line).left_end ≤ line.length ∧
    (formula_parse delimiter final_marker line).right_start ≤ line.length := by
  unfold formula_parse
  cases h1 : first_match [delimiter, final_marker] line with
  | some pr =>
    cases pr with
    | mk pre post =>
      exact ⟨first_match_pre_length_le h1, Nat.sub_le _ _⟩
  | none =>
    cases h2 : first_match [delimiter] line with
    | some pr =>
      cases pr with
      | mk pre post =>
        exact ⟨first_match_pre_length_le h2, Nat.sub_le _ _⟩
    | none =>
      exact ⟨Nat.zero_le _, Nat.zero_le _⟩

theorem substitution_formula_new_ok {properties : SchemeProperties} {store line : List Char}
    {f : SubstitutionFormula}
    (h : SubstitutionFormula.new properties (store ++ line)
      (store.length, (store ++ line).length) = .ok f) :
    f.view.left.1 = store.length ∧ f.view.left.2 ≤ (store ++ line).length ∧
    f.view.right.2 = (store ++ line).length ∧
    f.view.peek_definition (store ++ line) = line ∧
    (∃ t, f.view.get_left (store ++ line) ++ t = line) ∧
    (∃ t2, t2 ++ f.view.get_right (store ++ line) = line) := by
  have hslice : slice (store ++ line) (store.length, (store ++ line).length) = line := by
    have : (store ++ line).length = store.length + line.length := List.length_append _ _
    rw [this, slice_append_take, List.take_length]
  simp only [SubstitutionFormula.new, hslice] at h
  split at h
  · exact absurd h (by simp)
  · split at h
    · exact absurd h (by simp)
    · injection h with h2
      subst h2
      constructor
      · rfl
      constructor
      · show store.length + (formula_parse properties.delimiter
          properties.final_marker line).left_end ≤ (store ++ line).length
        rw [List.length_append]
        have := (formula_parse_bounds properties.delimiter properties.final_marker line).1
        omega
      constructor
      · rfl
      constructor
      · exact hslice
      constructor
      · refine ⟨line.drop (formula_parse properties.delimiter
          properties.final_marker line).left_end, ?_⟩
        show slice (store ++ line) (store.length, store.length + _) ++ _ = line
        rw [slice_append_take]
        exact List.take_append_drop _ _
      · refine ⟨line.take (formula_parse properties.delimiter
          properties.final_marker line).right_start, ?_⟩
        show _ ++ slice (store ++ line) (store.length + _, (store ++ line).length) = line
        rw [slice_append_drop]
        exact List.take_append_drop _ _

theorem try_add_formula_ok {properties : SchemeProperties} {store : List Char}
    {formulas : List SubstitutionFormula} {line store2 : List Char}
    {formulas2 : List SubstitutionFormula}
    (h : try_add_formula properties store formulas line = .ok (store2, formulas2)) :
    store2 = store ++ line ∧ ∃ f, formulas2 = formulas ++ [f] ∧
      f.view.left.2 ≤ store2.length ∧ f.view.right.2 = store2.length ∧
      f.view.peek_definition store2 = line ∧
      (∃ t, f.view.get_left store2 ++ t = line) ∧
      (∃ t2, t2 ++ f.view.get_right store2 = line) := by
  simp only [try_add_formula] at h
  cases hnew : SubstitutionFormula.new properties (store ++ line)
      (store.length, (store ++ line).length) with
  | error e =>
    rw [hnew] at h
    have h3 : Except.error (AlgorithmSchemeDefinitionError.FormulaCreationError e) =
        Except.ok (store2, formulas2) := h
    exact absurd h3 (by simp)
  | ok f0 =>
    rw [hnew] at h
    have h3 : Except.ok (store ++ line, formulas ++ [f0]) =
        Except.ok (store2, formulas2) := h
    injection h3 with h4
    have hs : store2 = store ++ line := (congrArg Prod.fst h4).symm
    have hf : formulas2 = formulas ++ [f0] := (congrArg Prod.snd h4).symm
    subst hs hf
    rcases substitution_formula_new_ok hnew with ⟨_, hb1, hb2, hpeek, hlft, hrgt⟩
    exact ⟨rfl, f0, rfl, hb1, hb2, hpeek, hlft, hrgt⟩

theorem build_go_ok {properties : SchemeProperties} :
    ∀ (defs : List (List Char)) (store : List Char) (formulas : List SubstitutionFormula)
      (store2 : List Char) (formulas2 : List SubstitutionFormula),
    build_go properties defs store formulas = .ok (store2, formulas2) →
    ∃ tail, formulas2 = formulas ++ tail ∧ tail.length = defs.length ∧
      (∃ added, store2 = store ++ added) ∧
      ∀ i line f, defs.get? i = some line → tail.get? i = some f →
        f.view.left.2 ≤ store2.length ∧ f.view.right.2 ≤ store2.length ∧
        f.view.peek_definition store2 = line ∧
        (∃ t, f.view.get_left store2 ++ t = line) ∧
        (∃ t2, t2 ++ f.view.get_right store2 = line) := by
  intro defs
  induction defs with
  | nil =>
    intro store formulas store2 formulas2 h
    rw [build_go] at h
    injection h with h2
    have hs : store2 = store := (congrArg Prod.fst h2).symm
    have hf : formulas2 = formulas := (congrArg Prod.snd h2).symm
    subst hs hf
    refine ⟨[], by simp, rfl, ⟨[], by simp⟩, ?_⟩
    intro i line f _ hf
    simp at hf
  | cons d rest ih =>
    intro store formulas store2 formulas2 h
    rw [build_go] at h
    cases hconf : assert_definition_conforms_to_properties properties d with
    | error e =>
      rw [hconf] at h
      have h3 : Except.error e = Except.ok (store2, formulas2) := h
      exact absurd h3 (by simp)
    | ok u =>
      rw [hconf] at h
      cases hadd : try_add_formula properties store formulas d with
      | error e =>
        rw [hadd] at h
        have h3 : Except.error e = Except.ok (store2, formulas2) := h
        exact absurd h3 (by simp)
      | ok p =>
        obtain ⟨store_a, formulas_a⟩ := p
        rw [hadd] at h
        have hrec : build_go properties rest store_a formulas_a = .ok (store2, formulas2) := h
        rcases try_add_formula_ok hadd with ⟨hsa, f0, hfa, hb1, hb2, hpeek, hlft, hrgt⟩
        rcases ih store_a formulas_a store2 formulas2 hrec with
          ⟨tail', hf2, hlen, ⟨added', hs2⟩, hper⟩
        have hstore2len : store_a.length ≤ store2.length := by
          rw [hs2, List.length_append]
          omega
        refine ⟨f0 :: tail', ?_, ?_, ?_, ?_⟩
        · rw [hf2, hfa]
          simp
        · simp [hlen]
        · refine ⟨d ++ added', ?_⟩
          rw [hs2, hsa, List.append_assoc]
        · intro i line f hline hf
          cases i with
          | zero =>
            have hl : line = d := by simpa using hline.symm
            have hff : f = f0 := by simpa using hf.symm
            subst hl hff
            have hst_left : f.view.get_left store2 = f.view.get_left store_a := by
              rw [hs2]
              exact slice_stable store_a added' f.view.left hb1
            have hst_right : f.view.get_right store2 = f.view.get_right store_a := by
              rw [hs2]
              exact slice_stable store_a added' f.view.right (le_of_eq hb2)
            have hst_peek : f.view.peek_definition store2 =
                f.view.peek_definition store_a := by
              rw [hs2]
              exact slice_stable store_a added' (f.view.left.1, f.view.right.2)
                (le_of_eq hb2)
            refine ⟨le_trans hb1 hstore2len, le_trans (le_of_eq hb2) hstore2len, ?_, ?_, ?_⟩
            · rw [hst_peek]
              exact hpeek
            · rw [hst_left]
              exact hlft
            · rw [hst_right]
              exact hrgt
          | succ i' =>
            exact hper i' line f (by simpa using hline) (by simpa using hf)

/-! ## Claim theorems -/

/-- Claim C1: a single application step scans the formulas in priority order;
the first formula whose left side occurs in the word rewrites the leftmost
occurrence by its right side, yielding Final exactly when the formula is
final, carrying the formula definition; with no occurring left side the
step is Final with the word unchanged and no definition; on a valid word
apply_once agrees with the unchecked step. -/
theorem claim_C1_single_step (s : AlgorithmScheme) (w : List Char) :
    ((∀ f ∈ s.substitution_formulas, ¬ occurs_in (f.view.get_left s.store) w) →
      apply_once_unchecked s w = .Final ⟨w, none⟩)
    ∧ (∀ i f pre post, s.substitution_formulas.get? i = some f →
        (∀ j g, j < i → s.substitution_formulas.get? j = some g →
          ¬ occurs_in (g.view.get_left s.store) w) →
        leftmost_split (f.view.get_left s.store) w pre post →
        apply_once_unchecked s w =
          (if f.is_final then SingleApplicationResult.Final
            else SingleApplicationResult.Intermediate)
            ⟨pre ++ f.view.get_right s.store ++ post,
              some (f.view.peek_definition s.store)⟩)
    ∧ (assert_valid_word s w = .ok () →
        apply_once s w = .ok (apply_once_unchecked s w)) := by
  refine ⟨?_, ?_, ?_⟩
  · intro h
    exact apply_once_go_no_match fun f hf =>
      (first_match_eq_none_iff _ _).mpr (h f hf)
  · intro i f pre post hget hbefore hsplit
    exact apply_once_go_match hget
      (fun j g hj hjg => (first_match_eq_none_iff _ _).mpr (hbefore j g hj hjg))
      (first_match_of_leftmost hsplit)
  · intro hv
    simp only [apply_once, hv]

/-- Claim C1 witness: on the scenario-A scheme, no formula matches the word
444 so the step is Final with no definition, and on aaabc the first formula
rewrites the leftmost a. -/
theorem claim_C1_single_step_check :
    apply_once_unchecked example_scheme_a "444".toList =
      .Final ⟨"444".toList, none⟩ ∧
    apply_once_unchecked example_scheme_a "aaabc".toList =
      .Intermediate ⟨"baabc".toList, some "a→b".toList⟩ := by
  constructor
  · apply (claim_C1_single_step example_scheme_a "444".toList).1
    intro f hf
    have he : example_scheme_a.substitution_formulas =
        [⟨⟨(0, 1), (2, 3)⟩, false⟩, ⟨⟨(3, 4), (5, 6)⟩, false⟩,
          ⟨⟨(6, 7), (9, 10)⟩, true⟩] := by decide
    rw [he] at hf
    simp only [List.mem_cons, List.not_mem_nil, or_false] at hf
    rcases hf with rfl | rfl | rfl <;>
      exact (first_match_eq_none_iff _ _).mp (by decide)
  · have h := (claim_C1_single_step example_scheme_a "aaabc".toList).2.1 0
      ⟨⟨(0, 1), (2, 3)⟩, false⟩ [] "aabc".toList (by decide)
      (fun j g hj _ => absurd hj (Nat.not_lt_zero j))
      ⟨by decide, fun pre2 post2 _ => Nat.zero_le _⟩
    exact h.trans (by decide)

/-- Claim C5: word validation classifies every character in one pass; all
characters outside the extended alphabet are reported together and take
precedence, then all extension-only characters are reported together, and
validation succeeds exactly when every character is in the main set. -/
theorem claim_C5_input_validation (s : AlgorithmScheme) (w : List Char) :
    ((w.filter fun c => !s.properties.alphabet.contains_extended c) ≠ [] →
      assert_valid_word s w = .error (.UnknownCharactersEncountered
        (w.filter fun c => !s.properties.alphabet.contains_extended c)))
    ∧ ((w.filter fun c => !s.properties.alphabet.contains_extended c) = [] →
       (w.filter fun c => s.properties.alphabet.contains_extended c &&
         !s.properties.alphabet.contains c) ≠ [] →
      assert_valid_word s w = .error (.ExtensionCharactersEncountered
        (w.filter fun c => s.properties.alphabet.contains_extended c &&
          !s.properties.alphabet.contains c)))
    ∧ (assert_valid_word s w = .ok () ↔
        ∀ c ∈ w, s.properties.alphabet.contains c = true) := by
  have hav : assert_valid_word s w =
      if (w.filter fun c => !s.properties.alphabet.contains_extended c) ≠ [] then
        Except.error (AlgorithmSchemeInputValidationError.UnknownCharactersEncountered
          (w.filter fun c => !s.properties.alphabet.contains_extended c))
      else if (w.filter fun c => s.properties.alphabet.contains_extended c &&
          !s.properties.alphabet.contains c) ≠ [] then
        Except.error (AlgorithmSchemeInputValidationError.ExtensionCharactersEncountered
          (w.filter fun c => s.properties.alphabet.contains_extended c &&
            !s.properties.alphabet.contains c))
      else Except.ok () := by
    simp only [assert_valid_word]
    rw [valid_fold s.properties.alphabet w [] []]
    simp only [List.nil_append]
  refine ⟨?_, ?_, ?_⟩
  · intro h1
    rw [hav, if_pos h1]
  · intro h1 h2
    rw [hav, if_neg (fun hne => hne h1), if_pos h2]
  · rw [hav]
    constructor
    · intro h
      split_ifs at h with h1 h2
      intro c hc
      have hx1 := List.filter_eq_nil_iff.mp (not_not.mp h1) c hc
      have hx2 := List.filter_eq_nil_iff.mp (not_not.mp h2) c hc
      have hx1b : s.properties.alphabet.contains_extended c = true := by
        simpa using hx1
      rcases Bool.eq_false_or_eq_true (s.properties.alphabet.contains c) with hy | hy
      · exact hy
      · exfalso
        apply hx2
        rw [hx1b, hy]
        rfl
    · intro hall
      have hf1 : (w.filter fun c => !s.properties.alphabet.contains_extended c) = [] :=
        List.filter_eq_nil_iff.mpr fun c hc => by
          simp [contains_le_contains_extended (hall c hc)]
      have hf2 : (w.filter fun c => s.properties.alphabet.contains_extended c &&
          !s.properties.alphabet.contains c) = [] :=
        List.filter_eq_nil_iff.mpr fun c hc => by
          simp [hall c hc]
      rw [if_neg (fun hne => hne hf1), if_neg (fun hne => hne hf2)]

/-- Claim C5 witness: on the extension-scheme, a word with a character x
outside the extended alphabet reports exactly the unknown characters, a
pure extension word reports the extension characters, and a main-set word
validates. -/
theorem claim_C5_input_validation_check :
    assert_valid_word example_scheme_d "axd".toList =
      .error (.UnknownCharactersEncountered "x".toList) ∧
    assert_valid_word example_scheme_d "dad".toList =
      .error (.ExtensionCharactersEncountered "dd".toList) ∧
    assert_valid_word example_scheme_d "abc".toList = .ok () := by
  refine ⟨?_, ?_, ?_⟩
  · exact ((claim_C5_input_validation example_scheme_d "axd".toList).1
      (by decide)).trans (by decide)
  · exact ((claim_C5_input_validation example_scheme_d "dad".toList).2.1
      (by decide) (by decide)).trans (by decide)
  · exact (claim_C5_input_validation example_scheme_d "abc".toList).2.2.mpr (by decide)

/-- Claim C8: scheme properties validation runs exactly three checks in
order, reports only the first violation, accepts exactly when all three
hold, and consults only the main alphabet set, never the extension. -/
theorem claim_C8_properties_validation (delimiter final_marker : Char)
    (alphabet : Alphabet) :
    (assert_all_properties_are_valid ⟨delimiter, final_marker, alphabet⟩ =
        .error (.DelimiterAndFinalMarkerAreTheSame delimiter) ↔
        delimiter = final_marker)
    ∧ (assert_all_properties_are_valid ⟨delimiter, final_marker, alphabet⟩ =
        .error (.DelimiterBelongsToTheAlphabet delimiter) ↔
        delimiter ≠ final_marker ∧ alphabet.contains delimiter = true)
    ∧ (assert_all_properties_are_valid ⟨delimiter, final_marker, alphabet⟩ =
        .error (.FinalMarkerBelongsToTheAlphabet final_marker) ↔
        delimiter ≠ final_marker ∧ alphabet.contains delimiter = false ∧
          alphabet.contains final_marker = true)
    ∧ (assert_all_properties_are_valid ⟨delimiter, final_marker, alphabet⟩ = .ok () ↔
        delimiter ≠ final_marker ∧ alphabet.contains delimiter = false ∧
          alphabet.contains final_marker = false)
    ∧ (∀ ext : List Char, assert_all_properties_are_valid
        ⟨delimiter, final_marker, ⟨alphabet.main, ext⟩⟩ =
        assert_all_properties_are_valid ⟨delimiter, final_marker, alphabet⟩) := by
  refine ⟨?_, ?_, ?_, ?_, fun ext => rfl⟩ <;>
    · unfold assert_all_properties_are_valid
      split_ifs with h1 h2 h3 <;> simp_all

/-- Rewriting by a formula whose left side is empty always applies: the
pattern matches before the first character, so the right side is prepended. -/
theorem apply_empty_left (f : SubstitutionFormula) (store w : List Char)
    (hleft : f.view.get_left store = []) :
    f.apply store w = some ((if f.is_final then
        SubstitutionFormulaApplicationResult.Final
      else SubstitutionFormulaApplicationResult.Intermediate)
      (f.view.get_right store ++ w)) := by
  have hfm : first_match (f.view.get_left store) w = some ([], w) := by
    rw [hleft]
    cases w with
    | nil => rfl
    | cons c rest => rfl
  simp only [SubstitutionFormula.apply, hfm]
  cases hfin : f.is_final <;> simp [hfin]

/-- Claim C10: a definition beginning with the delimiter parses to a formula
with empty left side; such a formula applies to every word, prepending its
right side; with such a formula first in the scheme, no step ever produces
the formula-less Final result. -/
theorem claim_C10_empty_left_side :
    (example_build_e = .ok example_scheme_e ∧
      example_scheme_e.substitution_formulas =
        [⟨⟨(0, 0), (1, 2)⟩, false⟩] ∧
      FormulaView.get_left ⟨(0, 0), (1, 2)⟩ example_scheme_e.store = [])
    ∧ (∀ (f : SubstitutionFormula) (store w : List Char),
        f.view.get_left store = [] →
        f.apply store w = some ((if f.is_final then
            SubstitutionFormulaApplicationResult.Final
          else SubstitutionFormulaApplicationResult.Intermediate)
          (f.view.get_right store ++ w)))
    ∧ (∀ (s : AlgorithmScheme) (w : List Char) (f : SubstitutionFormula)
        (rest : List SubstitutionFormula),
        s.substitution_formulas = f :: rest →
        f.view.get_left s.store = [] →
        (result_data (apply_once_unchecked s w)).applied_formula_definition ≠
          none) := by
  refine ⟨by refine ⟨by decide, by decide, by decide⟩, apply_empty_left, ?_⟩
  intro s w f rest hs hleft
  have happ := apply_empty_left f s.store w hleft
  unfold apply_once_unchecked
  rw [hs, apply_once_go]
  cases hfin : f.is_final <;>
    · rw [hfin] at happ
      simp only [if_neg, if_pos, Bool.false_eq_true] at happ
      simp [happ, result_data]

/-- Claim C10 witness: with the empty-left-side scheme, the step on the word
a applies the first formula (prepending b), so the result always carries a
formula definition. -/
theorem claim_C10_empty_left_side_check :
    (result_data (apply_once_unchecked example_scheme_e "a".toList)).applied_formula_definition ≠
      none :=
  claim_C10_empty_left_side.2.2 example_scheme_e "a".toList
    ⟨⟨(0, 0), (1, 2)⟩, false⟩ [] (by decide) (by decide)

/-- Claim C2: apply with a zero limit always fails with ZeroStepsLimit, for
every scheme and word, the limit check coming before word validation; on a
valid word with a positive limit it succeeds at the first Final step with
steps_done at most the limit, and fails with HitTheStepsLimit at the limit
when no step among the first limit steps is Final. -/
theorem claim_C2_apply_bounds (s : AlgorithmScheme) (w : List Char) (limit : Nat) :
    (AlgorithmScheme.apply s w 0 = .error .ZeroStepsLimit)
    ∧ (0 < limit → assert_valid_word s w = .ok () →
        ((∀ k, k < limit → is_final_step s (nth_word s w k) = false) →
          AlgorithmScheme.apply s w limit = .error (.HitTheStepsLimit limit))
        ∧ (∀ k, k < limit → is_final_step s (nth_word s w k) = true →
            (∀ j, j < k → is_final_step s (nth_word s w j) = false) →
            AlgorithmScheme.apply s w limit = .ok ⟨nth_word s w (k + 1), k + 1⟩)) := by
  constructor
  · rfl
  · intro hpos hvalid
    have hz : assert_non_zero_limit limit = .ok () := by
      unfold assert_non_zero_limit
      rw [if_neg (by omega)]
    have happly : AlgorithmScheme.apply s w limit = apply_go s w 0 limit := by
      simp only [AlgorithmScheme.apply, hz, hvalid]
    constructor
    · intro hall
      rw [happly, apply_go_hit limit w 0 hall, Nat.zero_add]
    · intro k hk hfin hbefore
      rw [happly, apply_go_final k limit w 0 hk hfin hbefore, Nat.zero_add]

/-- Claim C2 witness: on the scenario-A scheme, a zero limit is rejected and
with limit 10 the run stops at the first Final step, after 8 steps. -/
theorem claim_C2_apply_bounds_check :
    AlgorithmScheme.apply example_scheme_a "aaabc".toList 0 =
      .error .ZeroStepsLimit ∧
    AlgorithmScheme.apply example_scheme_a "aaabc".toList 10 =
      .ok ⟨nth_word example_scheme_a "aaabc".toList 8, 8⟩ := by
  constructor
  · exact (claim_C2_apply_bounds example_scheme_a "aaabc".toList 0).1
  · exact ((claim_C2_apply_bounds example_scheme_a "aaabc".toList 10).2
      (by omega) (by decide)).2 7 (by omega) (by decide) (by decide)

/-- Claim C3 counterexample: on the extension scheme, apply succeeds in two
steps, but replaying the validating apply_once fails at the second step,
because the intermediate word carries the extension character d. -/
theorem claim_C3_replay_counterexample :
    AlgorithmScheme.apply example_scheme_d "abc".toList 10 =
      .ok ⟨"cbc".toList, 2⟩ ∧
    apply_once example_scheme_d (nth_word example_scheme_d "abc".toList 1) =
      .error (.ExtensionCharactersEncountered "d".toList) := by
  constructor <;> decide

/-- Claim C3 (amended): when apply succeeds with steps_done = n, replaying
the unchecked single step (apply_once_unsafe) exactly n times from the
input reaches the output word, the n-th step is the first Final one, and no
earlier step is Final; the validating apply_once may instead reject an
intermediate word holding extension characters. -/
theorem claim_C3_replay (s : AlgorithmScheme) (w w2 : List Char) (limit n : Nat)
    (h : AlgorithmScheme.apply s w limit = .ok ⟨w2, n⟩) :
    1 ≤ n ∧ n ≤ limit ∧ w2 = nth_word s w n ∧
    is_final_step s (nth_word s w (n - 1)) = true ∧
    ∀ j, j < n - 1 → is_final_step s (nth_word s w j) = false := by
  unfold AlgorithmScheme.apply at h
  cases hz : assert_non_zero_limit limit with
  | error e =>
    rw [hz] at h
    have h3 : (Except.error e : Except AlgorithmSchemeFullApplicationError
      FullApplicationResult) = .ok ⟨w2, n⟩ := h
    exact absurd h3 (by simp)
  | ok u =>
    rw [hz] at h
    cases hv : assert_valid_word s w with
    | error e =>
      rw [hv] at h
      have h3 : (Except.error (AlgorithmSchemeFullApplicationError.InputValidationError e) :
        Except AlgorithmSchemeFullApplicationError FullApplicationResult) = .ok ⟨w2, n⟩ := h
      exact absurd h3 (by simp)
    | ok u2 =>
      rw [hv] at h
      have h3 : apply_go s w 0 limit = .ok ⟨w2, n⟩ := h
      rcases apply_go_ok_inv limit w 0 ⟨w2, n⟩ h3 with ⟨k, hk, hword, hsteps, hfin, hbefore⟩
      simp only at hword hsteps
      have hn : n = k + 1 := by omega
      subst hn
      refine ⟨by omega, by omega, hword, ?_, ?_⟩
      · simpa using hfin
      · intro j hj
        exact hbefore j (by omega)

/-- Claim C3 witness: replaying the scenario-A run of 8 steps. -/
theorem claim_C3_replay_check :
    1 ≤ 8 ∧ 8 ≤ 10 ∧
    "4cccc".toList = nth_word example_scheme_a "aaabc".toList 8 ∧
    is_final_step example_scheme_a
      (nth_word example_scheme_a "aaabc".toList (8 - 1)) = true ∧
    ∀ j, j < 8 - 1 → is_final_step example_scheme_a
      (nth_word example_scheme_a "aaabc".toList j) = false :=
  claim_C3_replay example_scheme_a "aaabc".toList "4cccc".toList 10 8 (by decide)

/-- Claim C4 (code-bug evidence): on the extension scheme the iterator is
created, its first advance yields the intermediate word dbc, and its second
advance aborts: next re-validates the retained word through apply_once,
which rejects the extension character d, and the expect call panics; an
iterator whose completion flag is set is permanently exhausted. -/
theorem claim_C4_iterator_panics :
    get_application_iterator example_scheme_d "abc".toList =
      .ok ⟨"abc".toList, false⟩ ∧
    ApplicationIterator.next_step example_scheme_d ⟨"abc".toList, false⟩ =
      .yielded ⟨"dbc".toList, some "a→d".toList⟩ ⟨"dbc".toList, false⟩ ∧
    ApplicationIterator.next_step example_scheme_d ⟨"dbc".toList, false⟩ =
      .panicked ∧
    ApplicationIterator.next_step example_scheme_d ⟨"cbc".toList, true⟩ =
      .exhausted := by
  refine ⟨by decide, by decide, by decide, by decide⟩

/-- Claim C6: scenario A: the default builder accepts a to b, b to c, c to
final 4, and applying the scheme to aaabc with limit 10 yields 4cccc in 8
steps. -/
theorem claim_C6_scenario_a :
    example_build_a = .ok example_scheme_a ∧
    AlgorithmScheme.apply example_scheme_a "aaabc".toList 10 =
      .ok ⟨"4cccc".toList, 8⟩ := by
  constructor <;> decide

/-- Claim C7 counterexample: parsing the empty character sequence does not
fail with NoCharacters; it succeeds with an empty alphabet. -/
theorem claim_C7_empty_parse_succeeds :
    Alphabet.from_str [] = .ok ⟨[], []⟩ := by decide

/-- Claim C7 (amended): the set-based constructor fails with NoCharacters
exactly on the empty set; string parsing succeeds on every duplicate-free
sequence, empty included, with contains holding for exactly the input
characters and an empty extension; on a sequence with repeats it fails
naming every duplicate occurrence: each character appears in the reported
duplicates once less than in the input. -/
theorem claim_C7_alphabet_construction (cs : List Char) :
    (Alphabet.try_from_set cs = .error .NoCharacters ↔ cs = [])
    ∧ (cs.Nodup → ∃ a, Alphabet.from_str cs = .ok a ∧ a.extension = [] ∧
        (∀ c, a.contains c = true ↔ c ∈ cs) ∧
        (∀ c, a.contains_extended c = a.contains c))
    ∧ (¬cs.Nodup → ∃ d, Alphabet.from_str cs =
        .error (.DuplicatedCharacterEncountered d cs) ∧
        ∀ c, d.count c = cs.count c - 1) := by
  refine ⟨?_, ?_, ?_⟩
  · unfold Alphabet.try_from_set
    by_cases h : cs = []
    · simp [h]
    · simp [h]
  · intro hnd
    have hdup : (from_str_go [] [] cs).2 = [] :=
      from_str_go_dups_of_nodup cs [] [] hnd (by simp)
    refine ⟨⟨(from_str_go [] [] cs).1, []⟩, ?_, rfl, ?_, ?_⟩
    · simp [Alphabet.from_str, hdup]
    · intro c
      unfold Alphabet.contains
      rw [contains_iff_mem]
      rw [show (Alphabet.mk (from_str_go [] [] cs).1 []).main =
        (from_str_go [] [] cs).1 from rfl]
      rw [from_str_go_mem]
      simp
    · intro c
      unfold Alphabet.contains_extended Alphabet.contains
      simp
  · intro hnd
    have hne : (from_str_go [] [] cs).2 ≠ [] := by
      have h2 : ¬ ∀ a, cs.count a ≤ 1 :=
        fun hh => hnd (List.nodup_iff_count_le_one.mpr hh)
      push_neg at h2
      rcases h2 with ⟨c, hc⟩
      have hcount := from_str_go_count cs [] [] c
      simp only [List.count_nil, List.not_mem_nil, if_false, Nat.zero_add] at hcount
      intro hnil
      rw [hnil] at hcount
      simp only [List.count_nil] at hcount
      omega
    refine ⟨(from_str_go [] [] cs).2, ?_, ?_⟩
    · simp only [Alphabet.from_str, if_neg hne]
    · intro c
      have hcount := from_str_go_count cs [] [] c
      simpa using hcount

/-- Claim C7 witness: the empty set is rejected, the duplicate-free sequence
ab parses with exactly a and b, and the duplicated sequence aba fails. -/
theorem claim_C7_alphabet_construction_check :
    (Alphabet.try_from_set [] = .error .NoCharacters) ∧
    (∃ a, Alphabet.from_str "ab".toList = .ok a ∧ a.extension = [] ∧
      (∀ c, a.contains c = true ↔ c ∈ "ab".toList) ∧
      (∀ c, a.contains_extended c = a.contains c)) ∧
    (∃ d, Alphabet.from_str "aba".toList =
      .error (.DuplicatedCharacterEncountered d "aba".toList) ∧
      ∀ c, d.count c = ("aba".toList).count c - 1) :=
  ⟨(claim_C7_alphabet_construction []).1.mpr rfl,
    (claim_C7_alphabet_construction "ab".toList).2.1 (by decide),
    (claim_C7_alphabet_construction "aba".toList).2.2 (by decide)⟩

/-- Claim C9: in a scheme built from definition lines, there is one formula
per line, each formula's definition view reads back exactly its raw line,
its left view is a prefix and its right view a suffix of that line, and the
step that applies the i-th formula reports the i-th raw line as the applied
formula definition. -/
theorem claim_C9_definition_views (b : AlgorithmSchemeBuilder)
    (defs : List (List Char)) (s : AlgorithmScheme)
    (hb : build_with_formula_definitions b defs = .ok s) :
    s.substitution_formulas.length = defs.length ∧
    ∀ i f line, s.substitution_formulas.get? i = some f → defs.get? i = some line →
      f.view.peek_definition s.store = line ∧
      (∃ t, f.view.get_left s.store ++ t = line) ∧
      (∃ t2, t2 ++ f.view.get_right s.store = line) ∧
      ∀ w pre post,
        (∀ j g, j < i → s.substitution_formulas.get? j = some g →
          ¬ occurs_in (g.view.get_left s.store) w) →
        leftmost_split (f.view.get_left s.store) w pre post →
        apply_once_unchecked s w =
          (if f.is_final then SingleApplicationResult.Final
            else SingleApplicationResult.Intermediate)
            ⟨pre ++ f.view.get_right s.store ++ post, some line⟩ := by
  simp only [build_with_formula_definitions] at hb
  cases hprops : assert_all_properties_are_valid (finalize_properties b) with
  | error e =>
    rw [hprops] at hb
    have h3 : (Except.error e : Except AlgorithmSchemeDefinitionError
      AlgorithmScheme) = .ok s := hb
    exact absurd h3 (by simp)
  | ok u =>
    rw [hprops] at hb
    cases hgo : build_go (finalize_properties b) defs [] [] with
    | error e =>
      rw [hgo] at hb
      have h3 : (Except.error e : Except AlgorithmSchemeDefinitionError
        AlgorithmScheme) = .ok s := hb
      exact absurd h3 (by simp)
    | ok p =>
      obtain ⟨store, formulas⟩ := p
      rw [hgo] at hb
      have h3 : Except.ok (AlgorithmScheme.mk (finalize_properties b) store formulas) =
          .ok s := hb
      injection h3 with h4
      subst h4
      rcases build_go_ok defs [] [] store formulas hgo with ⟨tail, hf2, hlen, _, hper⟩
      simp only [List.nil_append] at hf2
      subst hf2
      constructor
      · exact hlen
      · intro i f line hgetf hgetl
        rcases hper i line f hgetl hgetf with ⟨_, _, hpeek, hlft, hrgt⟩
        refine ⟨hpeek, hlft, hrgt, ?_⟩
        intro w pre post hbefore hsplit
        have hgo2 := apply_once_go_match hgetf
          (fun j g hj hjg => (first_match_eq_none_iff _ _).mpr (hbefore j g hj hjg))
          (first_match_of_leftmost hsplit)
        exact hgo2.trans (by rw [hpeek])

/-- Claim C9 witness: in the scenario-A scheme the second formula's
definition view reads back the second raw line. -/
theorem claim_C9_definition_views_check :
    (SubstitutionFormula.mk ⟨(3, 4), (5, 6)⟩ false).view.peek_definition
      example_scheme_a.store = "b→c".toList :=
  ((claim_C9_definition_views ⟨none, none, none⟩
    ["a→b".toList, "b→c".toList, "c→⋅4".toList] example_scheme_a (by decide)).2
    1 ⟨⟨(3, 4), (5, 6)⟩, false⟩ "b→c".toList (by decide) (by decide)).1

end MarkovSpec
